import Mathlib

/-!
Verification of the Oh et al. (1992) bare-soil backscatter model
(`sigma0/oh_model.py`): the two Fresnel reflectivity functions
`gammah` / `gammav` and the composite `sigma0_bare` function.

The Python code works with complex floating-point numbers; here it is
embedded over the exact fields ℝ and ℂ.  The numpy principal complex
square root is modelled by `csqrt` (the complex power 1/2, which on the
principal branch has nonnegative real part), the real powers `**` by
`Real.rpow`, `np.exp` by `Real.exp` and `np.sqrt` by `Real.sqrt`.
-/

open ComplexConjugate

/-- Principal complex square root, as computed by numpy `np.sqrt` on a
complex argument: the principal power `z ^ (1/2)`. -/
noncomputable def csqrt (z : ℂ) : ℂ := z ^ ((1 : ℂ) / 2)

/-- Embedding of `gammah(eps, theta)` from `oh_model.py`: incoherent
reflectivity for H-pol, angle in degrees. -/
noncomputable def gammah (eps : ℂ) (theta : ℝ) : ℝ :=
  let theta_rad : ℝ := theta / 180 * Real.pi
  let costheta : ℝ := Real.cos theta_rad
  let neliojuuri : ℂ := csqrt (eps - (((Real.sin theta_rad) ^ 2 : ℝ) : ℂ))
  Complex.abs (((costheta : ℂ) - neliojuuri) / ((costheta : ℂ) + neliojuuri)) ^ 2

/-- Embedding of `gammav(eps, theta)` from `oh_model.py`: incoherent
reflectivity for V-pol, angle in degrees. -/
noncomputable def gammav (eps : ℂ) (theta : ℝ) : ℝ :=
  let theta_rad : ℝ := theta / 180 * Real.pi
  let costheta : ℝ := Real.cos theta_rad
  let neliojuuri : ℂ := csqrt (eps - (((Real.sin theta_rad) ^ 2 : ℝ) : ℂ))
  Complex.abs ((eps * (costheta : ℂ) - neliojuuri) / (eps * (costheta : ℂ) + neliojuuri)) ^ 2

/-- Fault-aware embedding of `gammah`: the same formula, but returning
`none` exactly when the denominator of the Fresnel fraction is zero, the
case in which the program performs a division fault (numpy emits
infinity or NaN) instead of producing a number. -/
noncomputable def gammah_checked (eps : ℂ) (theta : ℝ) : Option ℝ :=
  let theta_rad : ℝ := theta / 180 * Real.pi
  let costheta : ℝ := Real.cos theta_rad
  let neliojuuri : ℂ := csqrt (eps - (((Real.sin theta_rad) ^ 2 : ℝ) : ℂ))
  if (costheta : ℂ) + neliojuuri = 0 then none
  else some (Complex.abs (((costheta : ℂ) - neliojuuri) / ((costheta : ℂ) + neliojuuri)) ^ 2)

/-- Fault-aware embedding of `gammav`: the same formula, but returning
`none` exactly when the denominator of the Fresnel fraction is zero, the
case in which the program performs a division fault. -/
noncomputable def gammav_checked (eps : ℂ) (theta : ℝ) : Option ℝ :=
  let theta_rad : ℝ := theta / 180 * Real.pi
  let costheta : ℝ := Real.cos theta_rad
  let neliojuuri : ℂ := csqrt (eps - (((Real.sin theta_rad) ^ 2 : ℝ) : ℂ))
  if eps * (costheta : ℂ) + neliojuuri = 0 then none
  else some (Complex.abs ((eps * (costheta : ℂ) - neliojuuri) /
    (eps * (costheta : ℂ) + neliojuuri)) ^ 2)

/-- The mapping returned by `sigma0_bare`, with its three fixed keys. -/
structure BackscatterResult where
  vv : ℝ
  vh : ℝ
  hh : ℝ

/-- Roughness attenuation factor `g` of `sigma0_bare`:
`0.7 * (1 - exp(-0.65 * k_rms ** 1.8))`. -/
noncomputable def oh_g (k_rms : ℝ) : ℝ :=
  0.7 * (1 - Real.exp (-0.65 * k_rms ^ (1.8 : ℝ)))

/-- The `root_p` intermediate of `sigma0_bare`:
`1 - ((2 * theta / pi) ** (1 / (3 * gam0))) * exp(-k_rms)` (theta in radians). -/
noncomputable def oh_root_p (theta_rad gam0 k_rms : ℝ) : ℝ :=
  1 - (2 * theta_rad / Real.pi) ^ (1 / (3 * gam0)) * Real.exp (-k_rms)

/-- The cross-polarization factor `q` of `sigma0_bare`:
`0.23 * sqrt(gam0) * (1 - exp(-k_rms))`. -/
noncomputable def oh_q (gam0 k_rms : ℝ) : ℝ :=
  0.23 * Real.sqrt gam0 * (1 - Real.exp (-k_rms))

/-- Embedding of `sigma0_bare(theta, eps_low, f_rms, f, eps_top=1)` from
`oh_model.py`, the Oh et al. (1992) surface backscatter model. -/
noncomputable def sigma0_bare (theta : ℝ) (eps_low : ℂ) (f_rms : ℝ) (f : ℝ)
    (eps_top : optParam ℂ 1) : BackscatterResult :=
  let k_rms : ℝ := 2 * Real.pi * f_rms
  let eps_eff : ℂ := eps_low / eps_top
  let gam0 : ℝ := gammah eps_eff 0
  let gamh : ℝ := gammah eps_eff theta
  let gamv : ℝ := gammav eps_eff theta
  let theta_rad : ℝ := theta / 180 * Real.pi
  let ct : ℝ := Real.cos theta_rad
  let g : ℝ := oh_g k_rms
  let root_p : ℝ := oh_root_p theta_rad gam0 k_rms
  let q : ℝ := oh_q gam0 k_rms
  let vv : ℝ := g * (ct * (ct * ct)) * (gamv + gamh) / root_p
  BackscatterResult.mk vv (q * vv) (root_p * root_p * vv)

/-! ### Basic facts about the principal complex square root -/

/-- On a nonnegative real argument the principal complex square root is
the real square root. -/
lemma csqrt_ofReal {r : ℝ} (hr : 0 ≤ r) : csqrt (r : ℂ) = ((Real.sqrt r : ℝ) : ℂ) := by
  have h2 : ((1 : ℂ) / 2) = (((1 / 2 : ℝ) : ℝ) : ℂ) := by norm_num
  rw [csqrt, h2, ← Complex.ofReal_cpow hr, ← Real.sqrt_eq_rpow]

/-- The principal complex square root squares back to its argument. -/
lemma csqrt_mul_self (z : ℂ) : csqrt z * csqrt z = z := by
  by_cases hz : z = 0
  · subst hz
    rw [csqrt, Complex.zero_cpow (by norm_num : ((1 : ℂ) / 2) ≠ 0), mul_zero]
  · rw [csqrt, ← Complex.cpow_add _ _ hz]
    norm_num

/-- The principal complex square root lies in the closed right half
plane: its real part is nonnegative. -/
lemma csqrt_re_nonneg (z : ℂ) : 0 ≤ (csqrt z).re := by
  have h2 : ((1 : ℂ) / 2) = ((2 : ℂ))⁻¹ := by norm_num
  rw [csqrt, h2, Complex.cpow_inv_two_re]
  exact Real.sqrt_nonneg _

/-- The principal complex square root vanishes only at zero. -/
lemma csqrt_eq_zero_iff (z : ℂ) : csqrt z = 0 ↔ z = 0 := by
  rw [csqrt, Complex.cpow_eq_zero_iff]
  norm_num

/-- The principal complex square root of zero is zero. -/
lemma csqrt_zero : csqrt 0 = 0 := by
  rw [csqrt, Complex.zero_cpow (by norm_num : ((1 : ℂ) / 2) ≠ 0)]

/-- The principal complex square root of one is one. -/
lemma csqrt_one : csqrt 1 = 1 := by
  rw [show ((1 : ℂ)) = (((1 : ℝ)) : ℂ) by norm_num, csqrt_ofReal zero_le_one, Real.sqrt_one]

/-- The principal complex square root of four is two. -/
lemma csqrt_four : csqrt (4 : ℂ) = 2 := by
  rw [show ((4 : ℂ)) = (((4 : ℝ)) : ℂ) by norm_num, csqrt_ofReal (by norm_num : (0:ℝ) ≤ 4),
    show (4 : ℝ) = 2 ^ 2 by norm_num, Real.sqrt_sq (by norm_num : (0:ℝ) ≤ 2)]
  norm_num

/-! ### Helper lemmas for the reflectivity bounds and identities -/

/-- Pythagorean identity pushed into ℂ, in the form appearing inside the
reflectivity functions at permittivity one. -/
lemma one_sub_sin_sq (t : ℝ) :
    (1 : ℂ) - (((Real.sin t) ^ 2 : ℝ) : ℂ) = (((Real.cos t) ^ 2 : ℝ) : ℂ) := by
  have h2 : (Real.cos t) ^ 2 = 1 - (Real.sin t) ^ 2 := by
    nlinarith [Real.sin_sq_add_cos_sq t]
  rw [h2]
  push_cast
  ring

/-- Complex numbers whose conjugate product has nonnegative real part
satisfy the reversed triangle comparison in the form needed for the
Fresnel fractions. -/
lemma abs_sub_le_abs_add_of_re_nonneg {a b : ℂ} (h : 0 ≤ (a * conj b).re) :
    Complex.abs (a - b) ≤ Complex.abs (a + b) := by
  rw [Complex.abs_apply, Complex.abs_apply]
  apply Real.sqrt_le_sqrt
  rw [Complex.normSq_sub, Complex.normSq_add]
  linarith

/-- The squared magnitude of a Fresnel-type fraction is at most one when
the numerator magnitude is dominated by the denominator magnitude.  A
zero denominator yields zero under the total division of ℂ. -/
lemma abs_ratio_le_one {a b : ℂ} (h : Complex.abs (a - b) ≤ Complex.abs (a + b)) :
    Complex.abs ((a - b) / (a + b)) ^ 2 ≤ 1 := by
  rw [map_div₀]
  rcases eq_or_lt_of_le (Complex.abs.nonneg (a + b)) with h0 | h0
  · rw [← h0, div_zero]
    norm_num
  · have h1 : Complex.abs (a - b) / Complex.abs (a + b) ≤ 1 := (div_le_one h0).mpr h
    have h2 : 0 ≤ Complex.abs (a - b) / Complex.abs (a + b) :=
      div_nonneg (Complex.abs.nonneg _) (Complex.abs.nonneg _)
    nlinarith

/-- On incidence angles between 0 and 90 degrees the internal radian
angle has nonnegative cosine. -/
lemma theta_rad_cos_nonneg {theta : ℝ} (h0 : 0 ≤ theta) (h90 : theta ≤ 90) :
    0 ≤ Real.cos (theta / 180 * Real.pi) := by
  apply Real.cos_nonneg_of_neg_pi_div_two_le_of_le
  · have : 0 ≤ theta / 180 * Real.pi := mul_nonneg (by linarith) Real.pi_pos.le
    linarith [Real.pi_pos]
  · have h1 : theta / 180 ≤ 1 / 2 := by linarith
    calc theta / 180 * Real.pi ≤ 1 / 2 * Real.pi :=
          mul_le_mul_of_nonneg_right h1 Real.pi_pos.le
      _ = Real.pi / 2 := by ring

/-- H-pol reflectivity is at most one whenever the internal cosine is
nonnegative, for every complex permittivity. -/
lemma gammah_le_one (eps : ℂ) (theta : ℝ)
    (hc : 0 ≤ Real.cos (theta / 180 * Real.pi)) : gammah eps theta ≤ 1 := by
  simp only [gammah]
  apply abs_ratio_le_one
  apply abs_sub_le_abs_add_of_re_nonneg
  have hre : 0 ≤ (csqrt (eps - (((Real.sin (theta / 180 * Real.pi)) ^ 2 : ℝ) : ℂ))).re :=
    csqrt_re_nonneg _
  set n := csqrt (eps - (((Real.sin (theta / 180 * Real.pi)) ^ 2 : ℝ) : ℂ))
  simp only [Complex.mul_re, Complex.ofReal_re, Complex.ofReal_im, Complex.conj_re,
    Complex.conj_im, zero_mul, sub_zero]
  exact mul_nonneg hc hre

/-- V-pol reflectivity is at most one whenever the internal cosine is
nonnegative, for every complex permittivity. -/
lemma gammav_le_one (eps : ℂ) (theta : ℝ)
    (hc : 0 ≤ Real.cos (theta / 180 * Real.pi)) : gammav eps theta ≤ 1 := by
  simp only [gammav]
  apply abs_ratio_le_one
  apply abs_sub_le_abs_add_of_re_nonneg
  have hre : 0 ≤ (csqrt (eps - (((Real.sin (theta / 180 * Real.pi)) ^ 2 : ℝ) : ℂ))).re :=
    csqrt_re_nonneg _
  have hsq := csqrt_mul_self (eps - (((Real.sin (theta / 180 * Real.pi)) ^ 2 : ℝ) : ℂ))
  set n := csqrt (eps - (((Real.sin (theta / 180 * Real.pi)) ^ 2 : ℝ) : ℂ))
  have heps : eps = n * n + (((Real.sin (theta / 180 * Real.pi)) ^ 2 : ℝ) : ℂ) := by
    rw [hsq]
    ring
  rw [heps]
  have h1 : 0 ≤ Real.cos (theta / 180 * Real.pi) * n.re := mul_nonneg hc hre
  simp only [Complex.mul_re, Complex.mul_im, Complex.add_re, Complex.add_im,
    Complex.conj_re, Complex.conj_im, Complex.ofReal_re, Complex.ofReal_im]
  nlinarith [mul_nonneg h1 (sq_nonneg n.re), mul_nonneg h1 (sq_nonneg n.im),
    mul_nonneg h1 (sq_nonneg (Real.sin (theta / 180 * Real.pi)))]

/-- H-pol reflectivity is always nonnegative. -/
lemma gammah_nonneg (eps : ℂ) (theta : ℝ) : 0 ≤ gammah eps theta :=
  pow_nonneg (Complex.abs.nonneg _) 2

/-- V-pol reflectivity is always nonnegative. -/
lemma gammav_nonneg (eps : ℂ) (theta : ℝ) : 0 ≤ gammav eps theta :=
  pow_nonneg (Complex.abs.nonneg _) 2

/-! ### Concrete evaluations of the reflectivity functions -/

/-- At permittivity 4 and normal incidence the H-pol reflectivity is 1/9. -/
lemma gammah_four_zero : gammah 4 0 = 1 / 9 := by
  simp only [gammah]
  norm_num [csqrt_four]

/-- At permittivity 4 and 180 degrees the H-pol reflectivity is 9. -/
lemma gammah_four_at_180 : gammah 4 180 = 9 := by
  simp only [gammah]
  norm_num [csqrt_four]

/-- At permittivity 4 and 180 degrees the V-pol reflectivity is 9. -/
lemma gammav_four_at_180 : gammav 4 180 = 9 := by
  simp only [gammav]
  norm_num [csqrt_four]

/-- At permittivity 0 the two reflectivities differ at normal incidence:
H gives 1 while V gives 0. -/
lemma gammah_gammav_zero_zero : gammah 0 0 = 1 ∧ gammav 0 0 = 0 := by
  constructor
  · simp only [gammah]
    norm_num [csqrt_zero]
  · simp only [gammav]
    norm_num [csqrt_zero]

/-- C1 — `gammah` returns the H-pol Fresnel power reflectivity
`|cos t - sqrt(eps - sin^2 t)|^2 / |cos t + sqrt(eps - sin^2 t)|^2` with
t the angle converted to radians, and the result is nonnegative. -/
theorem gammah_contract (eps : ℂ) (angle : ℝ) :
    gammah eps angle =
      Complex.abs ((Real.cos (angle / 180 * Real.pi) : ℂ) -
          csqrt (eps - (((Real.sin (angle / 180 * Real.pi)) ^ 2 : ℝ) : ℂ))) ^ 2 /
        Complex.abs ((Real.cos (angle / 180 * Real.pi) : ℂ) +
          csqrt (eps - (((Real.sin (angle / 180 * Real.pi)) ^ 2 : ℝ) : ℂ))) ^ 2 ∧
      0 ≤ gammah eps angle := by
  constructor
  · rw [gammah, map_div₀, div_pow]
  · exact pow_nonneg (Complex.abs.nonneg _) 2

/-- C2 — `gammav` returns the V-pol Fresnel power reflectivity
`|eps cos t - sqrt(eps - sin^2 t)|^2 / |eps cos t + sqrt(eps - sin^2 t)|^2`
with t the angle converted to radians, and the result is nonnegative. -/
theorem gammav_contract (eps : ℂ) (angle : ℝ) :
    gammav eps angle =
      Complex.abs (eps * (Real.cos (angle / 180 * Real.pi) : ℂ) -
          csqrt (eps - (((Real.sin (angle / 180 * Real.pi)) ^ 2 : ℝ) : ℂ))) ^ 2 /
        Complex.abs (eps * (Real.cos (angle / 180 * Real.pi) : ℂ) +
          csqrt (eps - (((Real.sin (angle / 180 * Real.pi)) ^ 2 : ℝ) : ℂ))) ^ 2 ∧
      0 ≤ gammav eps angle := by
  constructor
  · rw [gammav, map_div₀, div_pow]
  · exact pow_nonneg (Complex.abs.nonneg _) 2

/-- C8 — the frequency argument of `sigma0_bare` has no influence on the
result: any two frequencies give equal outputs. -/
theorem sigma0_bare_frequency_irrelevant (theta : ℝ) (eps_low : ℂ) (f_rms : ℝ)
    (f1 f2 : ℝ) (eps_top : ℂ) :
    sigma0_bare theta eps_low f_rms f1 eps_top =
      sigma0_bare theta eps_low f_rms f2 eps_top := rfl

/-- C3 (counterexample) — the claimed bound fails outside the physical
angle range: at permittivity 4 (nonnegative real part) and angle 180
degrees the H-pol reflectivity is 9, which exceeds 1. -/
theorem reflectivity_range_counterexample :
    (0 : ℝ) ≤ ((4 : ℂ)).re ∧ ¬ gammah 4 180 ≤ 1 := by
  constructor
  · simp
  · rw [gammah_four_at_180]
    norm_num

/-- C3 (amended) — for every complex permittivity with nonnegative real
part and every incidence angle between 0 and 90 degrees, both power
reflectivities lie in the unit interval. -/
theorem reflectivity_bounded (eps : ℂ) (theta : ℝ) (hre : 0 ≤ eps.re)
    (h0 : 0 ≤ theta) (h90 : theta ≤ 90) :
    (0 ≤ gammah eps theta ∧ gammah eps theta ≤ 1) ∧
      (0 ≤ gammav eps theta ∧ gammav eps theta ≤ 1) :=
  ⟨⟨gammah_nonneg _ _, gammah_le_one _ _ (theta_rad_cos_nonneg h0 h90)⟩,
   ⟨gammav_nonneg _ _, gammav_le_one _ _ (theta_rad_cos_nonneg h0 h90)⟩⟩

/-- C3 (witness) — the bounds instantiated at permittivity 4 and angle
40 degrees. -/
theorem reflectivity_bounded_witness :
    (0 : ℝ) ≤ ((4 : ℂ)).re ∧ (0 : ℝ) ≤ 40 ∧ (40 : ℝ) ≤ 90 ∧
      ((0 ≤ gammah 4 40 ∧ gammah 4 40 ≤ 1) ∧ (0 ≤ gammav 4 40 ∧ gammav 4 40 ≤ 1)) :=
  ⟨by simp, by norm_num, by norm_num,
   reflectivity_bounded 4 40 (by simp) (by norm_num) (by norm_num)⟩

/-- C4 (counterexample) — at permittivity 1 and angle 180 degrees both
reflectivity fractions have an exactly zero denominator (cosine is -1,
the principal square root of 1 - sin^2 is +1), so the program hits its
division fault there instead of returning 0: the fault-aware embeddings
return `none`, not `some 0`. -/
theorem matched_media_counterexample :
    gammah_checked 1 180 = none ∧ gammav_checked 1 180 = none := by
  constructor
  · simp only [gammah_checked]
    rw [show (180 : ℝ) / 180 * Real.pi = Real.pi by norm_num, Real.cos_pi, Real.sin_pi]
    norm_num [csqrt_one]
  · simp only [gammav_checked]
    rw [show (180 : ℝ) / 180 * Real.pi = Real.pi by norm_num, Real.cos_pi, Real.sin_pi]
    norm_num [csqrt_one]

/-- C4 (amended) — at permittivity 1 (no dielectric contrast) both
reflectivities are exactly zero for every angle in [0, 90) degrees; on
that range the denominators are strictly positive, so the fault-aware
embeddings confirm the value `some 0` without relying on any
division-by-zero convention. -/
theorem matched_media_zero_reflectivity (theta : ℝ) (h0 : 0 ≤ theta) (h90 : theta < 90) :
    gammah 1 theta = 0 ∧ gammav 1 theta = 0 ∧
      gammah_checked 1 theta = some 0 ∧ gammav_checked 1 theta = some 0 := by
  have hc : 0 < Real.cos (theta / 180 * Real.pi) := by
    refine Real.cos_pos_of_mem_Ioo ⟨?_, ?_⟩
    · have : 0 ≤ theta / 180 * Real.pi := mul_nonneg (by linarith) Real.pi_pos.le
      linarith [Real.pi_pos]
    · have h1 : theta / 180 < 1 / 2 := by linarith
      calc theta / 180 * Real.pi < 1 / 2 * Real.pi := mul_lt_mul_of_pos_right h1 Real.pi_pos
        _ = Real.pi / 2 := by ring
  have hn : csqrt ((1 : ℂ) - (((Real.sin (theta / 180 * Real.pi)) ^ 2 : ℝ) : ℂ)) =
      ((Real.cos (theta / 180 * Real.pi) : ℝ) : ℂ) := by
    rw [one_sub_sin_sq, csqrt_ofReal (sq_nonneg _), Real.sqrt_sq_eq_abs, abs_of_pos hc]
  have hden : ((Real.cos (theta / 180 * Real.pi) : ℂ) +
      (Real.cos (theta / 180 * Real.pi) : ℂ)) ≠ 0 := by
    rw [← Complex.ofReal_add]
    exact Complex.ofReal_ne_zero.mpr (by linarith)
  refine ⟨?_, ?_, ?_, ?_⟩
  · simp only [gammah, hn]
    simp
  · simp only [gammav, hn, one_mul]
    simp
  · simp only [gammah_checked, hn]
    rw [if_neg hden]
    simp
  · simp only [gammav_checked, hn, one_mul]
    rw [if_neg hden]
    simp

/-- C4 (witness) — the matched-media identity instantiated at angle 0. -/
theorem matched_media_zero_reflectivity_witness :
    (0 : ℝ) ≤ 0 ∧ (0 : ℝ) < 90 ∧
      (gammah 1 0 = 0 ∧ gammav 1 0 = 0 ∧
        gammah_checked 1 0 = some 0 ∧ gammav_checked 1 0 = some 0) :=
  ⟨le_refl 0, by norm_num, matched_media_zero_reflectivity 0 (le_refl 0) (by norm_num)⟩

/-- C5 (counterexample) — at permittivity 0 the H-pol and V-pol
reflectivities disagree at normal incidence: H gives 1, V gives 0. -/
theorem normal_incidence_counterexample : gammah 0 0 ≠ gammav 0 0 := by
  rw [gammah_gammav_zero_zero.1, gammah_gammav_zero_zero.2]
  norm_num

/-- C5 (amended) — for every nonzero complex permittivity the H-pol and
V-pol reflectivities coincide at normal incidence. -/
theorem normal_incidence_equality (eps : ℂ) (heps : eps ≠ 0) :
    gammah eps 0 = gammav eps 0 := by
  simp only [gammah, gammav]
  norm_num
  set n := csqrt eps with hn
  have hn0 : n ≠ 0 := by
    rw [hn, ne_eq, csqrt_eq_zero_iff]
    exact heps
  have hsq : eps = n * n := (csqrt_mul_self eps).symm
  rw [hsq, show n * n - n = n * (n - 1) by ring, show n * n + n = n * (n + 1) by ring,
    map_mul, map_mul, mul_div_mul_left _ _ (Complex.abs.ne_zero hn0),
    show Complex.abs (n - 1) = Complex.abs (1 - n) from AbsoluteValue.map_sub _ n 1,
    add_comm n 1]

/-- C5 (witness) — the normal-incidence equality instantiated at
permittivity 1. -/
theorem normal_incidence_equality_witness :
    (1 : ℂ) ≠ 0 ∧ gammah 1 0 = gammav 1 0 :=
  ⟨by norm_num, normal_incidence_equality 1 (by norm_num)⟩

/-- C6 — the returned vh component always equals `q * vv` with
`q = 0.23 * sqrt(gamma0) * (1 - exp(-k_rms))`, `gamma0` the H-pol
reflectivity of the effective permittivity at angle 0, and
`k_rms = 2 pi f_rms`; thus vh/vv is determined by `q` alone. -/
theorem sigma0_bare_vh_q_relation (theta : ℝ) (eps_low : ℂ) (f_rms f : ℝ) (eps_top : ℂ) :
    (sigma0_bare theta eps_low f_rms f eps_top).vh =
      (0.23 * Real.sqrt (gammah (eps_low / eps_top) 0) *
          (1 - Real.exp (-(2 * Real.pi * f_rms)))) *
        (sigma0_bare theta eps_low f_rms f eps_top).vv := rfl

/-- C9 — `sigma0_bare` depends on the two permittivities only through
their ratio, and omitting the upper permittivity equals passing 1. -/
theorem sigma0_bare_depends_on_ratio (theta : ℝ) (eps_low : ℂ) (f_rms f : ℝ)
    (eps_top : ℂ) (h : eps_top ≠ 0) :
    sigma0_bare theta eps_low f_rms f eps_top =
        sigma0_bare theta (eps_low / eps_top) f_rms f 1 ∧
      sigma0_bare theta eps_low f_rms f = sigma0_bare theta eps_low f_rms f 1 := by
  constructor
  · simp only [sigma0_bare, div_one]
  · rfl

/-- C9 (witness) — the ratio dependence instantiated at upper
permittivity 2. -/
theorem sigma0_bare_depends_on_ratio_witness :
    (2 : ℂ) ≠ 0 ∧
      (sigma0_bare 0 1 0 0 2 = sigma0_bare 0 (1 / 2) 0 0 1 ∧
        sigma0_bare 0 1 0 0 = sigma0_bare 0 1 0 0 1) :=
  ⟨by norm_num, sigma0_bare_depends_on_ratio 0 1 0 0 2 (by norm_num)⟩

/-- Value of `root_p` at radian angle pi, normal-incidence reflectivity
1/9 and roughness wavenumber `2 pi / 100`. -/
lemma oh_root_p_cex_eval :
    oh_root_p Real.pi (1 / 9) (2 * Real.pi * (1 / 100)) =
      1 - 8 * Real.exp (-(2 * Real.pi * (1 / 100))) := by
  rw [oh_root_p,
    show 2 * Real.pi / Real.pi = 2 by rw [mul_div_assoc, div_self Real.pi_ne_zero, mul_one],
    show (1 : ℝ) / (3 * (1 / 9)) = ((3 : ℕ) : ℝ) by norm_num,
    Real.rpow_natCast]
  norm_num

/-- The exponential attenuation at roughness wavenumber `2 pi / 100`
lies strictly between 1/4 and 1. -/
lemma exp_cex_bounds :
    1 / 4 < Real.exp (-(2 * Real.pi * (1 / 100))) ∧
      Real.exp (-(2 * Real.pi * (1 / 100))) < 1 := by
  constructor
  · have h1 := Real.add_one_le_exp (-(2 * Real.pi * (1 / 100)))
    have h2 := Real.pi_lt_four
    linarith
  · rw [Real.exp_lt_one_iff]
    have := Real.pi_pos
    linarith

/-- The roughness factor `g` is strictly positive at roughness
wavenumber `2 pi / 100`. -/
lemma oh_g_cex_pos : 0 < oh_g (2 * Real.pi * (1 / 100)) := by
  rw [oh_g]
  have h1 : (0 : ℝ) < (2 * Real.pi * (1 / 100)) ^ (1.8 : ℝ) :=
    Real.rpow_pos_of_pos (by positivity) _
  have h2 : Real.exp (-0.65 * (2 * Real.pi * (1 / 100)) ^ (1.8 : ℝ)) < 1 := by
    rw [Real.exp_lt_one_iff]
    nlinarith
  nlinarith

/-- Value of `root_p` at angle 0 degrees, effective permittivity 4 and
zero roughness. -/
lemma oh_root_p_at_zero_eval :
    oh_root_p ((0 : ℝ) / 180 * Real.pi) (gammah ((4 : ℂ) / 1) 0) (2 * Real.pi * 0) = 1 := by
  rw [div_one, gammah_four_zero, oh_root_p,
    show (1 : ℝ) / (3 * (1 / 9)) = 3 by norm_num]
  norm_num [Real.zero_rpow]

/-- At angle 0, permittivity 4 and zero roughness the vv component
vanishes. -/
lemma sigma0_bare_vv_at_zero : (sigma0_bare 0 4 0 0 1).vv = 0 := by
  have hg : oh_g 0 = 0 := by
    rw [oh_g, Real.zero_rpow (by norm_num : (1.8 : ℝ) ≠ 0)]
    simp
  simp [sigma0_bare, hg]

/-- C7 (counterexample) — at angle 180 degrees, lower permittivity 4,
fractional roughness 1/100, the internal `root_p` is at most 1 and yet
the returned hh strictly exceeds vv, refuting the claim that
`root_p ≤ 1` alone forces `hh ≤ vv`. -/
theorem hh_le_vv_counterexample :
    oh_root_p (180 / 180 * Real.pi) (gammah ((4 : ℂ) / 1) 0) (2 * Real.pi * (1 / 100)) ≤ 1 ∧
      ¬ (sigma0_bare 180 4 (1 / 100) 0 1).hh ≤ (sigma0_bare 180 4 (1 / 100) 0 1).vv := by
  have hE := exp_cex_bounds
  have hEpos := Real.exp_pos (-(2 * Real.pi * (1 / 100)))
  have hR2 := oh_root_p_cex_eval
  have hg := oh_g_cex_pos
  constructor
  · rw [show (180 : ℝ) / 180 * Real.pi = Real.pi by norm_num, div_one, gammah_four_zero, hR2]
    linarith
  · simp only [sigma0_bare, div_one, gammah_four_zero, gammah_four_at_180, gammav_four_at_180,
      show (180 : ℝ) / 180 * Real.pi = Real.pi by norm_num, Real.cos_pi]
    rw [not_le]
    have hRlt : oh_root_p Real.pi (1 / 9) (2 * Real.pi * (1 / 100)) < -1 := by
      rw [hR2]
      linarith [hE.1]
    set R := oh_root_p Real.pi (1 / 9) (2 * Real.pi * (1 / 100))
    set g := oh_g (2 * Real.pi * (1 / 100))
    have hV : 0 < g * (-1 * (-1 * -1)) * (9 + 9) / R := by
      apply div_pos_of_neg_of_neg
      · nlinarith
      · linarith
    nlinarith [mul_pos (show (0 : ℝ) < R * R - 1 by nlinarith) hV]

/-- C7 (amended) — the hh component always equals `root_p ^ 2 * vv`; and
whenever `-1 ≤ root_p ≤ 1` and `vv` is nonnegative, `hh ≤ vv`. -/
theorem sigma0_bare_hh_relation (theta : ℝ) (eps_low : ℂ) (f_rms f : ℝ) (eps_top : ℂ) :
    (sigma0_bare theta eps_low f_rms f eps_top).hh =
        oh_root_p (theta / 180 * Real.pi) (gammah (eps_low / eps_top) 0) (2 * Real.pi * f_rms) *
          oh_root_p (theta / 180 * Real.pi) (gammah (eps_low / eps_top) 0) (2 * Real.pi * f_rms) *
          (sigma0_bare theta eps_low f_rms f eps_top).vv ∧
      (-1 ≤ oh_root_p (theta / 180 * Real.pi) (gammah (eps_low / eps_top) 0)
            (2 * Real.pi * f_rms) →
        oh_root_p (theta / 180 * Real.pi) (gammah (eps_low / eps_top) 0)
            (2 * Real.pi * f_rms) ≤ 1 →
        0 ≤ (sigma0_bare theta eps_low f_rms f eps_top).vv →
        (sigma0_bare theta eps_low f_rms f eps_top).hh ≤
          (sigma0_bare theta eps_low f_rms f eps_top).vv) := by
  constructor
  · rfl
  · intro h1 h2 h3
    set R := oh_root_p (theta / 180 * Real.pi) (gammah (eps_low / eps_top) 0)
      (2 * Real.pi * f_rms)
    set V := (sigma0_bare theta eps_low f_rms f eps_top).vv
    have hhh : (sigma0_bare theta eps_low f_rms f eps_top).hh = R * R * V := rfl
    rw [hhh]
    have h4 : R * R ≤ 1 := by nlinarith
    nlinarith [mul_nonneg (sub_nonneg.2 h4) h3]

/-- C7 (witness) — the hh/vv comparison instantiated at angle 0,
permittivity 4 and zero roughness, where `root_p = 1` and `vv = 0`. -/
theorem sigma0_bare_hh_relation_witness :
    (sigma0_bare 0 4 0 0 1).hh ≤ (sigma0_bare 0 4 0 0 1).vv :=
  (sigma0_bare_hh_relation 0 4 0 0 1).2
    (by rw [oh_root_p_at_zero_eval]; norm_num)
    (by rw [oh_root_p_at_zero_eval])
    (by rw [sigma0_bare_vv_at_zero])
